import Mathlib

/-!
Verification of the query/validation layer of the JsMacros Version Finder.

The TypeScript sources are embedded shallowly: strings are Lean `String`s,
but all string processing is done over `String.data : List Char` with
explicit structural functions so that every definition evaluates inside the
kernel.  JavaScript numbers that occur here are always exact small integers,
so they are modelled as `Int`.  `Array.prototype.sort` (a stable sort using
a user comparator) is modelled by `List.mergeSort` with the boolean relation
`fun a b => cmp a b ≤ 0`.
-/

namespace JsMacrosFinder

/-! ### Character-list utilities (models of the JS string primitives used) -/

/-- Model of `String.prototype.split(sep)` for a single-character separator,
working on the character list.  Like JS, splitting the empty string yields
one empty field. -/
def splitOnChar (sep : Char) : List Char → List (List Char)
  | [] => [[]]
  | c :: cs =>
    let rest := splitOnChar sep cs
    if c = sep then
      [] :: rest
    else
      match rest with
      | [] => [[c]]
      | h :: t => (c :: h) :: t

/-- ASCII lower-casing of one character; models `toLowerCase` on the ASCII
range, which is the only range exercised by the catalog fields. -/
def lowerChar (c : Char) : Char :=
  if 'A' ≤ c ∧ c ≤ 'Z' then Char.ofNat (c.toNat + 32) else c

/-- Model of `String.prototype.toLowerCase` (ASCII range). -/
def jsToLower (s : String) : String :=
  ⟨s.data.map lowerChar⟩

/-- Whitespace test used by `String.prototype.trim` (ASCII subset). -/
def isWsChar (c : Char) : Bool :=
  c = ' ' ∨ c = '\t' ∨ c = '\n' ∨ c = '\r'

/-- Model of `String.prototype.trim`. -/
def jsTrim (s : String) : String :=
  ⟨((s.data.dropWhile isWsChar).reverse.dropWhile isWsChar).reverse⟩

/-- Boolean prefix test on character lists. -/
def isPrefixOfB : List Char → List Char → Bool
  | [], _ => true
  | _ :: _, [] => false
  | a :: as, b :: bs => a = b && isPrefixOfB as bs

/-- Boolean infix (substring) test on character lists; models
`String.prototype.includes` after both sides are taken to their
character lists. -/
def isInfixOfB (needle : List Char) : List Char → Bool
  | [] => isPrefixOfB needle []
  | b :: bs => isPrefixOfB needle (b :: bs) || isInfixOfB needle bs

/-- Model of `haystack.includes(needle)`. -/
def includesStr (haystack needle : String) : Bool :=
  isInfixOfB needle.data haystack.data

/-- Code-point lexicographic strict order on character lists.  This models
`String.prototype.localeCompare` returning a negative value; the real ICU
collation can differ on case folding and punctuation weighting, but on the
digit/dot version strings stored in the catalog the two orders coincide. -/
def lexLt : List Char → List Char → Bool
  | [], [] => false
  | [], _ :: _ => true
  | _ :: _, [] => false
  | a :: as, b :: bs => if a = b then lexLt as bs else decide (a.toNat < b.toNat)

theorem isPrefixOfB_iff : ∀ n h : List Char, isPrefixOfB n h = true ↔ n <+: h := by
  intro n
  induction n with
  | nil => intro h; simp [isPrefixOfB]
  | cons a as ih =>
    intro h
    cases h with
    | nil => simp [isPrefixOfB]
    | cons b bs =>
      simp [isPrefixOfB, ih bs, List.cons_prefix_cons]

theorem isInfixOfB_iff : ∀ n h : List Char, isInfixOfB n h = true ↔ n <:+: h := by
  intro n h
  induction h with
  | nil => simp [isInfixOfB, isPrefixOfB_iff]
  | cons b bs ih =>
    simp [isInfixOfB, isPrefixOfB_iff, ih, List.infix_cons_iff]

theorem lexLt_irrefl : ∀ as : List Char, lexLt as as = false := by
  intro as
  induction as with
  | nil => rfl
  | cons a as ih => simp [lexLt, ih]

theorem lexLt_trans :
    ∀ as bs cs : List Char, lexLt as bs = true → lexLt bs cs = true → lexLt as cs = true := by
  intro as
  induction as with
  | nil =>
    intro bs cs h1 h2
    cases bs with
    | nil => exact absurd h1 (by simp [lexLt])
    | cons b bs =>
      cases cs with
      | nil => exact absurd h2 (by simp [lexLt])
      | cons c cs => simp [lexLt]
  | cons a as ih =>
    intro bs cs h1 h2
    cases bs with
    | nil => exact absurd h1 (by simp [lexLt])
    | cons b bs =>
      cases cs with
      | nil => exact absurd h2 (by simp [lexLt])
      | cons c cs =>
        simp only [lexLt] at h1 h2 ⊢
        by_cases hab : a = b
        · subst hab
          simp only [if_pos rfl] at h1
          by_cases hbc : a = c
          · subst hbc
            simp only [if_pos rfl] at h2 ⊢
            exact ih bs cs h1 h2
          · simp only [if_neg hbc] at h2 ⊢
            exact h2
        · simp only [if_neg hab, decide_eq_true_eq] at h1
          by_cases hbc : b = c
          · subst hbc
            simp only [if_neg hab, decide_eq_true_eq]
            exact h1
          · simp only [if_neg hbc, decide_eq_true_eq] at h2
            have hac : a.toNat < c.toNat := Nat.lt_trans h1 h2
            have : a ≠ c := by
              intro h; subst h; exact Nat.lt_irrefl _ hac
            simp only [if_neg this, decide_eq_true_eq]
            exact hac

theorem lexLt_asymm (as bs : List Char) (h : lexLt as bs = true) : lexLt bs as = false := by
  by_contra hb
  have hba : lexLt bs as = true := by
    cases hab : lexLt bs as with
    | false => exact absurd hab hb
    | true => rfl
  have := lexLt_trans as bs as h hba
  rw [lexLt_irrefl] at this
  exact Bool.false_ne_true this

theorem lexLt_trichotomy :
    ∀ as bs : List Char, lexLt as bs = true ∨ as = bs ∨ lexLt bs as = true := by
  intro as
  induction as with
  | nil =>
    intro bs
    cases bs with
    | nil => exact Or.inr (Or.inl rfl)
    | cons b bs => exact Or.inl (by simp [lexLt])
  | cons a as ih =>
    intro bs
    cases bs with
    | nil => exact Or.inr (Or.inr (by simp [lexLt]))
    | cons b bs =>
      by_cases hab : a = b
      · subst hab
        rcases ih bs with h | h | h
        · exact Or.inl (by simp [lexLt, h])
        · exact Or.inr (Or.inl (by rw [h]))
        · exact Or.inr (Or.inr (by simp [lexLt, h]))
      · rcases Nat.lt_trichotomy a.toNat b.toNat with h | h | h
        · exact Or.inl (by simp [lexLt, hab, h])
        · exact absurd (by rw [← Char.ofNat_toNat a, h, Char.ofNat_toNat] : a = b) hab
        · refine Or.inr (Or.inr ?_)
          have hba : b ≠ a := fun hx => hab hx.symm
          simp [lexLt, hba, h]

/-! ### The dotted-numeric version comparator (src/dataLoader.ts, compareVersions) -/

/-- Value of a digit character. -/
def digitVal (c : Char) : Nat := c.toNat - 48

/-- Decimal value of a nonempty all-digit character list, `none` otherwise. -/
def digitsVal : List Char → Option Nat
  | [] => none
  | cs =>
    if cs.all Char.isDigit then
      some (cs.foldl (fun n c => n * 10 + digitVal c) 0)
    else
      none

/-- Model of `Number(v) || 0` on a version component, as used in
`compareVersions`: leading/trailing whitespace is ignored, an optionally
signed decimal integer evaluates to itself, the empty string evaluates to 0,
and anything else (`NaN` in JS) is collapsed to 0 by `|| 0`.  Exotic JS
numeric forms (exponent, hex, fractional) do not occur in dotted version
components and are not modelled. -/
def jsNumberOrZero (cs : List Char) : Int :=
  let t := ((cs.dropWhile isWsChar).reverse.dropWhile isWsChar).reverse
  match t with
  | [] => 0
  | '-' :: rest =>
    match digitsVal rest with
    | some n => -(n : Int)
    | none => 0
  | '+' :: rest =>
    match digitsVal rest with
    | some n => (n : Int)
    | none => 0
  | _ =>
    match digitsVal t with
    | some n => (n : Int)
    | none => 0

/-- Numeric components of a version string: `a.split('.').map((v) => Number(v) || 0)`. -/
def components (s : String) : List Int :=
  (splitOnChar '.' s.data).map jsNumberOrZero

/-- First nonzero entry of a component list; used when the other list is
exhausted and its missing components count as 0. -/
def firstNonzero : List Int → Option Int
  | [] => none
  | a :: as => if a = 0 then firstNonzero as else some a

/-- First nonzero difference of two component lists, where a missing
component counts as 0 (`ap[i] ?? 0`); `none` when the zero-padded lists
agree at every index.  This is the loop of `compareVersions`. -/
def firstDiff : List Int → List Int → Option Int
  | [], bs => (firstNonzero bs).map (fun d => -d)
  | a :: as, [] => if a = 0 then firstDiff as [] else some a
  | a :: as, b :: bs => if a = b then firstDiff as bs else some (a - b)

/-- Model of `compareVersions` from src/dataLoader.ts: the loop over the
zero-padded components returns the first difference `av - bv`; if the padded
components all agree the result is `ap.length - bp.length`. -/
def compareVersions (a b : String) : Int :=
  let ap := components a
  let bp := components b
  match firstDiff ap bp with
  | some d => d
  | none => (ap.length : Int) - (bp.length : Int)

theorem firstDiff_nil_right : ∀ bs : List Int, firstDiff bs [] = firstNonzero bs := by
  intro bs
  induction bs with
  | nil => rfl
  | cons b bs ih => simp [firstDiff, firstNonzero, ih]

theorem firstDiff_refl : ∀ as : List Int, firstDiff as as = none := by
  intro as
  induction as with
  | nil => rfl
  | cons a as ih => simp [firstDiff, ih]

theorem firstDiff_neg :
    ∀ as bs : List Int, firstDiff bs as = (firstDiff as bs).map (fun d => -d) := by
  intro as
  induction as with
  | nil =>
    intro bs
    rw [firstDiff_nil_right]
    show firstNonzero bs = ((firstNonzero bs).map fun d => -d).map fun d => -d
    cases firstNonzero bs <;> simp
  | cons a as ih =>
    intro bs
    cases bs with
    | nil =>
      show ((firstNonzero (a :: as)).map fun d => -d) = (firstDiff (a :: as) []).map fun d => -d
      rw [firstDiff_nil_right]
    | cons b bs =>
      by_cases hab : a = b
      · subst hab
        simp only [firstDiff, if_pos rfl]
        exact ih bs
      · have hba : b ≠ a := fun hx => hab hx.symm
        have hd : b - a = -(a - b) := by ring
        simp only [firstDiff, if_neg hab, if_neg hba, Option.map_some', hd]

theorem firstNonzero_ne_zero :
    ∀ bs : List Int, ∀ d, firstNonzero bs = some d → d ≠ 0 := by
  intro bs
  induction bs with
  | nil => intro d h; exact absurd h (by simp [firstNonzero])
  | cons b bs ih =>
    intro d h
    by_cases hb : b = 0
    · subst hb; simp only [firstNonzero, if_pos rfl] at h; exact ih d h
    · simp only [firstNonzero, if_neg hb, Option.some.injEq] at h
      omega

theorem firstDiff_ne_zero :
    ∀ as bs : List Int, ∀ d, firstDiff as bs = some d → d ≠ 0 := by
  intro as
  induction as with
  | nil =>
    intro bs d h
    have hdef : firstDiff [] bs = (firstNonzero bs).map (fun d => -d) := rfl
    rw [hdef] at h
    cases hb : firstNonzero bs with
    | none => rw [hb] at h; exact absurd h (by simp)
    | some e =>
      rw [hb] at h
      simp only [Option.map_some', Option.some.injEq] at h
      have := firstNonzero_ne_zero bs e hb
      omega
  | cons a as ih =>
    intro bs
    cases bs with
    | nil =>
      intro d h
      rw [firstDiff_nil_right] at h
      exact firstNonzero_ne_zero _ d h
    | cons b bs =>
      intro d h
      by_cases hab : a = b
      · subst hab; simp only [firstDiff, if_pos rfl] at h; exact ih bs d h
      · simp only [firstDiff, if_neg hab, Option.some.injEq] at h
        omega

theorem firstNonzero_append_zero :
    ∀ bs : List Int, firstNonzero (bs ++ [0]) = firstNonzero bs := by
  intro bs
  induction bs with
  | nil => simp [firstNonzero]
  | cons b bs ih =>
    by_cases hb : b = 0
    · subst hb; simpa [firstNonzero] using ih
    · simp [firstNonzero, hb]

theorem firstDiff_append_zero_right :
    ∀ as bs : List Int, firstDiff as (bs ++ [0]) = firstDiff as bs := by
  intro as
  induction as with
  | nil =>
    intro bs
    show ((firstNonzero (bs ++ [0])).map fun d => -d) = (firstNonzero bs).map fun d => -d
    rw [firstNonzero_append_zero]
  | cons a as ih =>
    intro bs
    cases bs with
    | nil =>
      rw [firstDiff_nil_right]
      show firstDiff (a :: as) [0] = firstNonzero (a :: as)
      by_cases ha : a = 0
      · subst ha
        simpa [firstDiff, firstNonzero] using (firstDiff_nil_right as)
      · simp [firstDiff, firstNonzero, ha]
    | cons b bs =>
      by_cases hab : a = b
      · subst hab; simpa [firstDiff] using ih bs
      · simp [firstDiff, hab]

theorem firstDiff_append_replicate_right :
    ∀ (k : Nat) (as bs : List Int), firstDiff as (bs ++ List.replicate k 0) = firstDiff as bs := by
  intro k
  induction k with
  | zero => simp
  | succ k ih =>
    intro as bs
    have : bs ++ List.replicate (k + 1) 0 = (bs ++ [0]) ++ List.replicate k 0 := by
      simp [List.replicate_succ]
    rw [this, ih, firstDiff_append_zero_right]

theorem firstDiff_append_replicate_left :
    ∀ (k : Nat) (as bs : List Int), firstDiff (as ++ List.replicate k 0) bs = firstDiff as bs := by
  intro k as bs
  have h1 : firstDiff (as ++ List.replicate k 0) bs
      = (firstDiff bs (as ++ List.replicate k 0)).map (fun d => -d) :=
    firstDiff_neg bs (as ++ List.replicate k 0)
  rw [firstDiff_append_replicate_right k bs as] at h1
  rw [h1, firstDiff_neg bs as]

/-- Zero padding of a component list to length `n`. -/
def padTo (n : Nat) (xs : List Int) : List Int :=
  xs ++ List.replicate (n - xs.length) 0

theorem padTo_length (n : Nat) (xs : List Int) (h : xs.length ≤ n) :
    (padTo n xs).length = n := by
  simp [padTo]
  omega

theorem firstDiff_padTo (n : Nat) (as bs : List Int) :
    firstDiff (padTo n as) (padTo n bs) = firstDiff as bs := by
  unfold padTo
  rw [firstDiff_append_replicate_left, firstDiff_append_replicate_right]

theorem firstDiff_eq_none_iff_of_length :
    ∀ as bs : List Int, as.length = bs.length → (firstDiff as bs = none ↔ as = bs) := by
  intro as
  induction as with
  | nil =>
    intro bs h
    cases bs with
    | nil => simp [firstDiff, firstNonzero]
    | cons b bs => simp at h
  | cons a as ih =>
    intro bs h
    cases bs with
    | nil => simp at h
    | cons b bs =>
      simp only [List.length_cons, Nat.add_right_cancel_iff] at h
      by_cases hab : a = b
      · subst hab
        simp [firstDiff, ih bs h]
      · simp [firstDiff, hab]

/-- Strict "first difference is negative" relation on component lists. -/
def fdLt (as bs : List Int) : Prop :=
  ∃ d, firstDiff as bs = some d ∧ d < 0

theorem fdLt_trans_of_length :
    ∀ as bs cs : List Int, as.length = bs.length → bs.length = cs.length →
      fdLt as bs → fdLt bs cs → fdLt as cs := by
  intro as
  induction as with
  | nil =>
    intro bs cs hab _ h1 _
    cases bs with
    | nil =>
      rcases h1 with ⟨d, hd, _⟩
      exact absurd hd (by simp [firstDiff, firstNonzero])
    | cons b bs => simp at hab
  | cons a as ih =>
    intro bs cs hab hbc h1 h2
    cases bs with
    | nil => simp at hab
    | cons b bs =>
      cases cs with
      | nil => simp at hbc
      | cons c cs =>
        simp only [List.length_cons, Nat.add_right_cancel_iff] at hab hbc
        by_cases heab : a = b
        · subst heab
          have h1' : fdLt as bs := by
            rcases h1 with ⟨d, hd, hneg⟩
            simp only [firstDiff, if_pos rfl] at hd
            exact ⟨d, hd, hneg⟩
          by_cases heac : a = c
          · subst heac
            have h2' : fdLt bs cs := by
              rcases h2 with ⟨d, hd, hneg⟩
              simp only [firstDiff, if_pos rfl] at hd
              exact ⟨d, hd, hneg⟩
            rcases ih bs cs hab hbc h1' h2' with ⟨d, hd, hneg⟩
            exact ⟨d, by simp [firstDiff, hd], hneg⟩
          · rcases h2 with ⟨d, hd, hneg⟩
            simp only [firstDiff, if_neg heac, Option.some.injEq] at hd
            exact ⟨a - c, by simp [firstDiff, heac], by omega⟩
        · rcases h1 with ⟨d, hd, hneg⟩
          simp only [firstDiff, if_neg heab, Option.some.injEq] at hd
          have hlt1 : a < b := by omega
          by_cases hebc : b = c
          · subst hebc
            have : a ≠ b := heab
            exact ⟨a - b, by simp [firstDiff, heab], by omega⟩
          · rcases h2 with ⟨e, he, hneg2⟩
            simp only [firstDiff, if_neg hebc, Option.some.injEq] at he
            have hlt2 : b < c := by omega
            have : a ≠ c := by omega
            exact ⟨a - c, by simp [firstDiff, this], by omega⟩

/-- Characterization of the sign of `compareVersions` through zero-padding
both component lists to a common length `n`: the result is negative exactly
when the padded lists have a negative first difference, or agree and the
left list is shorter; it is zero exactly when the padded lists agree and the
lengths are equal. -/
theorem compareVersions_char (a b : String) (n : Nat)
    (ha : (components a).length ≤ n) (hb : (components b).length ≤ n) :
    (compareVersions a b < 0 ↔
      (fdLt (padTo n (components a)) (padTo n (components b)) ∨
        (padTo n (components a) = padTo n (components b) ∧
          (components a).length < (components b).length)))
    ∧ (compareVersions a b = 0 ↔
      (padTo n (components a) = padTo n (components b) ∧
        (components a).length = (components b).length)) := by
  have hcv : compareVersions a b =
      (match firstDiff (components a) (components b) with
        | some d => d
        | none => ((components a).length : Int) - ((components b).length : Int)) := rfl
  have hpad : firstDiff (padTo n (components a)) (padTo n (components b))
      = firstDiff (components a) (components b) := firstDiff_padTo n _ _
  cases hfd : firstDiff (components a) (components b) with
  | some d =>
    have hd0 : d ≠ 0 := firstDiff_ne_zero _ _ d hfd
    have hpads : firstDiff (padTo n (components a)) (padTo n (components b)) = some d := by
      rw [hpad, hfd]
    have hne : padTo n (components a) ≠ padTo n (components b) := by
      intro he
      rw [he, firstDiff_refl] at hpads
      exact Option.noConfusion hpads
    have hval : compareVersions a b = d := by rw [hcv, hfd]
    rw [hval]
    constructor
    · constructor
      · intro hlt
        exact Or.inl ⟨d, hpads, hlt⟩
      · rintro (⟨e, he, hneg⟩ | ⟨heq, _⟩)
        · rw [hpads] at he
          injection he with he
          omega
        · exact absurd heq hne
    · constructor
      · intro h; omega
      · rintro ⟨heq, _⟩; exact absurd heq hne
  | none =>
    have hpads : firstDiff (padTo n (components a)) (padTo n (components b)) = none := by
      rw [hpad, hfd]
    have hlens : (padTo n (components a)).length = (padTo n (components b)).length := by
      rw [padTo_length n _ ha, padTo_length n _ hb]
    have heq : padTo n (components a) = padTo n (components b) :=
      (firstDiff_eq_none_iff_of_length _ _ hlens).mp hpads
    have hval : compareVersions a b
        = ((components a).length : Int) - ((components b).length : Int) := by
      rw [hcv, hfd]
    rw [hval]
    constructor
    · constructor
      · intro hlt
        exact Or.inr ⟨heq, by omega⟩
      · rintro (⟨e, he, _⟩ | ⟨_, hlt⟩)
        · rw [hpads] at he
          exact Option.noConfusion he
        · omega
    · constructor
      · intro h
        exact ⟨heq, by omega⟩
      · rintro ⟨_, hl⟩
        omega

theorem compareVersions_antisymm (a b : String) :
    compareVersions b a = -(compareVersions a b) := by
  have hcv : compareVersions b a =
      (match firstDiff (components b) (components a) with
        | some d => d
        | none => ((components b).length : Int) - ((components a).length : Int)) := rfl
  have hcv2 : compareVersions a b =
      (match firstDiff (components a) (components b) with
        | some d => d
        | none => ((components a).length : Int) - ((components b).length : Int)) := rfl
  rw [hcv, hcv2, firstDiff_neg (components a) (components b)]
  cases firstDiff (components a) (components b) with
  | none => simp
  | some d => simp

theorem compareVersions_self (a : String) : compareVersions a a = 0 := by
  have hcv : compareVersions a a =
      (match firstDiff (components a) (components a) with
        | some d => d
        | none => ((components a).length : Int) - ((components a).length : Int)) := rfl
  rw [hcv, firstDiff_refl]
  simp

theorem compareVersions_lt_trans (a b c : String)
    (h1 : compareVersions a b < 0) (h2 : compareVersions b c < 0) :
    compareVersions a c < 0 := by
  set n : Nat := max ((components a).length) (max ((components b).length) ((components c).length)) with hn
  have hna : (components a).length ≤ n := le_max_left _ _
  have hnb : (components b).length ≤ n := le_trans (le_max_left _ _) (le_max_right _ _)
  have hnc : (components c).length ≤ n := le_trans (le_max_right _ _) (le_max_right _ _)
  have hab := compareVersions_char a b n hna hnb
  have hbc := compareVersions_char b c n hnb hnc
  have hac := compareVersions_char a c n hna hnc
  have hlab : (padTo n (components a)).length = (padTo n (components b)).length := by
    rw [padTo_length n _ hna, padTo_length n _ hnb]
  have hlbc : (padTo n (components b)).length = (padTo n (components c)).length := by
    rw [padTo_length n _ hnb, padTo_length n _ hnc]
  rcases hab.1.mp h1 with hfd1 | ⟨heq1, hlt1⟩
  · rcases hbc.1.mp h2 with hfd2 | ⟨heq2, hlt2⟩
    · exact hac.1.mpr (Or.inl (fdLt_trans_of_length _ _ _ hlab hlbc hfd1 hfd2))
    · exact hac.1.mpr (Or.inl (heq2 ▸ hfd1))
  · rcases hbc.1.mp h2 with hfd2 | ⟨heq2, hlt2⟩
    · exact hac.1.mpr (Or.inl (heq1 ▸ hfd2))
    · exact hac.1.mpr (Or.inr ⟨heq1.trans heq2, by omega⟩)

theorem compareVersions_le_trans (a b c : String)
    (h1 : compareVersions a b ≤ 0) (h2 : compareVersions b c ≤ 0) :
    compareVersions a c ≤ 0 := by
  have h1' : compareVersions a b < 0 ∨ compareVersions a b = 0 := by omega
  have h2' : compareVersions b c < 0 ∨ compareVersions b c = 0 := by omega
  set n : Nat := max ((components a).length) (max ((components b).length) ((components c).length)) with hn
  have hna : (components a).length ≤ n := le_max_left _ _
  have hnb : (components b).length ≤ n := le_trans (le_max_left _ _) (le_max_right _ _)
  have hnc : (components c).length ≤ n := le_trans (le_max_right _ _) (le_max_right _ _)
  have hab := compareVersions_char a b n hna hnb
  have hbc := compareVersions_char b c n hnb hnc
  have hac := compareVersions_char a c n hna hnc
  have hlab : (padTo n (components a)).length = (padTo n (components b)).length := by
    rw [padTo_length n _ hna, padTo_length n _ hnb]
  have hlbc : (padTo n (components b)).length = (padTo n (components c)).length := by
    rw [padTo_length n _ hnb, padTo_length n _ hnc]
  rcases h1' with h1' | h1'
  · rcases h2' with h2' | h2'
    · have := compareVersions_lt_trans a b c h1' h2'
      omega
    · rcases hbc.2.mp h2' with ⟨heq2, hlen2⟩
      rcases hab.1.mp h1' with hfd1 | ⟨heq1, hlt1⟩
      · have : compareVersions a c < 0 := hac.1.mpr (Or.inl (heq2 ▸ hfd1))
        omega
      · have : compareVersions a c < 0 := hac.1.mpr (Or.inr ⟨heq1.trans heq2, by omega⟩)
        omega
  · rcases hab.2.mp h1' with ⟨heq1, hlen1⟩
    rcases h2' with h2' | h2'
    · rcases hbc.1.mp h2' with hfd2 | ⟨heq2, hlt2⟩
      · have : compareVersions a c < 0 := hac.1.mpr (Or.inl (heq1 ▸ hfd2))
        omega
      · have : compareVersions a c < 0 := hac.1.mpr (Or.inr ⟨heq1.trans heq2, by omega⟩)
        omega
    · rcases hbc.2.mp h2' with ⟨heq2, hlen2⟩
      have : compareVersions a c = 0 := hac.2.mpr ⟨heq1.trans heq2, by omega⟩
      omega

/-! ### Spec-side rendering of the version order (for C1) -/

/-- Pointwise lexicographic comparison of two component lists of equal
length (first differing component decides, by integer order). -/
def lexOrd : List Int → List Int → Ordering
  | [], [] => .eq
  | [], _ :: _ => .lt
  | _ :: _, [] => .gt
  | a :: as, b :: bs =>
    if a < b then .lt else if b < a then .gt else lexOrd as bs

/-- The version order exactly as the specification words it: split on `.`
into numeric components (non-numeric or missing components treated as 0),
compare component-by-component left to right, and — if all compared
components are equal — order the shorter sequence first. -/
def specVersionOrder (a b : String) : Ordering :=
  let ap := components a
  let bp := components b
  let n := max ap.length bp.length
  match lexOrd (padTo n ap) (padTo n bp) with
  | .eq =>
    if ap.length < bp.length then .lt
    else if bp.length < ap.length then .gt
    else .eq
  | o => o

theorem lexOrd_firstDiff_of_length :
    ∀ as bs : List Int, as.length = bs.length →
      lexOrd as bs =
        (match firstDiff as bs with
          | none => Ordering.eq
          | some d => if d < 0 then Ordering.lt else Ordering.gt) := by
  intro as
  induction as with
  | nil =>
    intro bs h
    cases bs with
    | nil => simp [lexOrd, firstDiff, firstNonzero]
    | cons b bs => simp at h
  | cons a as ih =>
    intro bs h
    cases bs with
    | nil => simp at h
    | cons b bs =>
      simp only [List.length_cons, Nat.add_right_cancel_iff] at h
      rcases Int.lt_trichotomy a b with hlt | heq | hgt
      · have hne : a ≠ b := by omega
        simp only [lexOrd, if_pos hlt, firstDiff, if_neg hne]
        have : a - b < 0 := by omega
        simp [this]
      · subst heq
        simp only [lexOrd, lt_irrefl, if_neg (lt_irrefl a), if_false, firstDiff, if_pos rfl]
        exact ih bs h
      · have hne : a ≠ b := by omega
        have hnlt : ¬ a < b := by omega
        simp only [lexOrd, if_neg hnlt, if_pos hgt, firstDiff, if_neg hne]
        have : ¬ (a - b < 0) := by omega
        simp [this]

/-- Sign agreement between the implementation comparator and the
spec-worded order. -/
theorem compareVersions_spec_agree (a b : String) :
    (compareVersions a b < 0 ↔ specVersionOrder a b = .lt)
    ∧ (compareVersions a b = 0 ↔ specVersionOrder a b = .eq)
    ∧ (0 < compareVersions a b ↔ specVersionOrder a b = .gt) := by
  set n : Nat := max ((components a).length) ((components b).length) with hn
  have hna : (components a).length ≤ n := le_max_left _ _
  have hnb : (components b).length ≤ n := le_max_right _ _
  have hlen : (padTo n (components a)).length = (padTo n (components b)).length := by
    rw [padTo_length n _ hna, padTo_length n _ hnb]
  have hlex := lexOrd_firstDiff_of_length (padTo n (components a)) (padTo n (components b)) hlen
  have hpad : firstDiff (padTo n (components a)) (padTo n (components b))
      = firstDiff (components a) (components b) := firstDiff_padTo n _ _
  have hcv : compareVersions a b =
      (match firstDiff (components a) (components b) with
        | some d => d
        | none => ((components a).length : Int) - ((components b).length : Int)) := rfl
  have hso : specVersionOrder a b =
      (match lexOrd (padTo n (components a)) (padTo n (components b)) with
        | .eq =>
          if (components a).length < (components b).length then Ordering.lt
          else if (components b).length < (components a).length then Ordering.gt
          else Ordering.eq
        | o => o) := rfl
  rw [hpad] at hlex
  cases hfd : firstDiff (components a) (components b) with
  | some d =>
    have hd0 : d ≠ 0 := firstDiff_ne_zero _ _ d hfd
    have hval : compareVersions a b = d := by rw [hcv, hfd]
    rw [hfd] at hlex
    by_cases hneg : d < 0
    · have hspec : specVersionOrder a b = .lt := by
        rw [hso, hlex]
        simp [hneg]
      rw [hval, hspec]
      exact ⟨by simp [hneg], by simp [hd0], by simp [show ¬ (0:Int) < d by omega]⟩
    · have hpos : (0:Int) < d := by omega
      have hspec : specVersionOrder a b = .gt := by
        rw [hso, hlex]
        simp [hneg]
      rw [hval, hspec]
      exact ⟨by simp [hneg], by simp [hd0], by simp [hpos]⟩
  | none =>
    have hval : compareVersions a b
        = ((components a).length : Int) - ((components b).length : Int) := by
      rw [hcv, hfd]
    rw [hfd] at hlex
    have hspec : specVersionOrder a b =
        (if (components a).length < (components b).length then Ordering.lt
          else if (components b).length < (components a).length then Ordering.gt
          else Ordering.eq) := by
      rw [hso, hlex]
    rcases Nat.lt_trichotomy (components a).length (components b).length with hl | hl | hl
    · have hspec2 : specVersionOrder a b = .lt := by
        rw [hspec]; simp [hl]
      rw [hval, hspec2]
      refine ⟨by simp; omega, by simp; omega, by simp; omega⟩
    · have h2 : ¬ (components a).length < (components b).length := by omega
      have h3 : ¬ (components b).length < (components a).length := by omega
      have hspec2 : specVersionOrder a b = .eq := by
        rw [hspec]; simp [h2, h3]
      rw [hval, hspec2]
      refine ⟨by simp; omega, by simp; omega, by simp; omega⟩
    · have h2 : ¬ (components a).length < (components b).length := by omega
      have hspec2 : specVersionOrder a b = .gt := by
        rw [hspec]; simp [h2, hl]
      rw [hval, hspec2]
      refine ⟨by simp; omega, by simp; omega, by simp; omega⟩

/-! ### Data model (src/types.ts) -/

/-- Download platform enumeration from src/types.ts. -/
inductive Platform where
  | fabric | forge | neoforge | extensionPlat | ts | other | python
deriving DecidableEq, Repr

/-- Mod-loader enumeration from src/types.ts. -/
inductive Loader where
  | fabric | forge | neoforge
deriving DecidableEq, Repr

/-- Release-type enumeration from src/types.ts. -/
inductive ReleaseType where
  | release | beta | nightly
deriving DecidableEq, Repr

/-- Build status enumeration from src/types.ts. -/
inductive Status where
  | supported | deprecatedStatus | experimental
deriving DecidableEq, Repr

/-- The `platform` field of a Download is a single value or a nonempty
array (`Platform | Platform[]`). -/
inductive PlatformField where
  | single (p : Platform)
  | multiple (ps : List Platform)
deriving DecidableEq, Repr

/-- Download record from src/types.ts. -/
structure Download where
  name : String
  platform : PlatformField
  url : String
  checksum : Option String
  notes : Option String
deriving DecidableEq, Repr

/-- Build record from src/types.ts.  The optional `sourceUrl` and the
`deprecated` flag appear in the later revision of the app component (the
second App.tsx variant reads `b.sourceUrl` and `b.deprecated`); in data
without them they are `none` / `false`, matching JS `undefined`
falsiness. -/
structure Build where
  id : String
  repo : String
  fork : String
  commit : String
  jsMacrosVersion : String
  modLoader : List Loader
  extensions : List String
  downloads : List Download
  releaseType : ReleaseType
  status : Option Status
  publishedAt : Option String
  notes : Option String
  sourceUrl : Option String
  deprecated : Bool
deriving DecidableEq, Repr

/-- Catalog payload from src/types.ts: `updatedAt` plus the version-keyed
grouping; `Record<string, Build[]>` is modelled as the ordered association
list produced by `Object.entries` (insertion order for these non-index
keys). -/
structure BuildsData where
  updatedAt : String
  versions : List (String × List Build)
deriving DecidableEq, Repr

/-- EnrichedBuild from src/types.ts: a Build plus the `mcVersion` group key
it was found under. -/
structure EnrichedBuild extends Build where
  mcVersion : String
deriving DecidableEq, Repr

/-! ### Catalog loader (src/dataLoader.ts, loadBuilds) -/

/-- Flattening step of `loadBuilds`:
`Object.entries(json.versions).flatMap(([mcVersion, arr]) => arr.map((b) => ({ ...b, mcVersion })))`. -/
def flattenBuilds (versions : List (String × List Build)) : List EnrichedBuild :=
  versions.flatMap (fun p => p.2.map (fun b => { toBuild := b, mcVersion := p.1 }))

/-- Outcome of the retrieval in `loadBuilds`: the `fetch` call can reject
(network failure; the caught exception's `.message`, or `none` when the
thrown value is not an `Error`), or produce a response with an HTTP status
whose body then either parses as JSON or throws a parse error. -/
inductive FetchOutcome where
  | networkError (message : Option String)
  | response (status : Nat) (body : Except (Option String) BuildsData)

/-- Result record of `loadBuilds`. -/
structure LoadResult where
  data : Option BuildsData
  builds : List EnrichedBuild
  error : Option String
deriving DecidableEq, Repr

/-- Message of a caught exception:
`err instanceof Error ? err.message : 'Unknown error'`. -/
def caughtMessage (m : Option String) : String :=
  m.getD "Unknown error"

/-- Whether `Response.ok` holds: status in the 2xx range. -/
def statusOk (status : Nat) : Prop :=
  200 ≤ status ∧ status < 300

instance (status : Nat) : Decidable (statusOk status) := by
  unfold statusOk
  infer_instance

/-- Model of `loadBuilds` from src/dataLoader.ts over the possible
retrieval outcomes.  Totality of this function is the "never throws past
its own boundary" property: every branch, including every failure, returns
a `LoadResult`. -/
def loadBuilds : FetchOutcome → LoadResult
  | .networkError m => ⟨none, [], some (caughtMessage m)⟩
  | .response status body =>
    if statusOk status then
      match body with
      | .error m => ⟨none, [], some (caughtMessage m)⟩
      | .ok json => ⟨some json, flattenBuilds json.versions, none⟩
    else
      ⟨none, [], some ("Failed to fetch data (" ++ toString status ++ ")")⟩

/-- A retrieval outcome on which `loadBuilds` succeeds. -/
def fetchSuccess : FetchOutcome → Prop
  | .response status (.ok _) => statusOk status
  | _ => False

/-! ### Dates (`new Date(publishedAt).getTime()` for YYYY-MM-DD strings) -/

/-- Days from the civil epoch 1970-01-01 (Howard Hinnant's algorithm).  For
the year range of the `YYYY-MM-DD` regex (0000-9999) every intermediate
division has the same value under truncated, floored and Euclidean integer
division, so Lean's `Int` division is safe here. -/
def daysFromCivil (y m d : Int) : Int :=
  let y2 : Int := if m ≤ 2 then y - 1 else y
  let era : Int := (if 0 ≤ y2 then y2 else y2 - 399) / 400
  let yoe : Int := y2 - era * 400
  let mp : Int := if m ≤ 2 then m + 9 else m - 3
  let doy : Int := (153 * mp + 2) / 5 + d - 1
  let doe : Int := yoe * 365 + yoe / 4 - yoe / 100 + doy
  era * 146097 + doe - 719468

/-- Parse of a strict `YYYY-MM-DD` string into epoch milliseconds, as
`new Date(s).getTime()` computes for an ISO date-only form (UTC midnight).
Returns `none` where JS would produce an invalid date (`NaN`): wrong shape,
non-digit parts, or month/day out of range.  (JS also rejects day numbers
beyond the month's length; such strings are rejected by CI before reaching
this code, and are not distinguished here.) -/
def parseDateMillis (s : String) : Option Int :=
  match (splitOnChar '-' s.data).map digitsVal with
  | [some y, some m, some d] =>
    if 1 ≤ m ∧ m ≤ 12 ∧ 1 ≤ d ∧ d ≤ 31 then
      some (daysFromCivil (y : Int) (m : Int) (d : Int) * 86400000)
    else
      none
  | _ => none

/-- Numeric sort key for the publish date:
`a.publishedAt ? new Date(a.publishedAt).getTime() : 0`.  A missing date is
the sentinel 0.  An unparseable date string is `NaN` in JS, which makes the
comparator inconsistent; the model collapses it to 0, and every theorem
about date sorting assumes the dates parse (they are CI-validated to
`YYYY-MM-DD`). -/
def timeKey (b : EnrichedBuild) : Int :=
  match b.publishedAt with
  | none => 0
  | some s => (parseDateMillis s).getD 0

/-- All `publishedAt` values of an entry parse (the regime in which the
model's date arithmetic coincides with JS). -/
def pubParses (b : EnrichedBuild) : Prop :=
  ∀ s, b.publishedAt = some s → (parseDateMillis s).isSome

/-! ### Query engine (App.tsx, both revisions) -/

/-- Sort keys of the list view. -/
inductive SortKey where
  | publishedAtKey | mcVersionKey | jsMacrosVersionKey
deriving DecidableEq, Repr

/-- Sort directions of the list view. -/
inductive SortDirection where
  | asc | desc
deriving DecidableEq, Repr

/-- Numeric factor applied to the comparator:
`const factor = sortDirection === "asc" ? 1 : -1`. -/
def sortFactor : SortDirection → Int
  | .asc => 1
  | .desc => -1

/-- Model of `a.localeCompare(b)` as a sign value of the code-point
lexicographic order (see `lexLt`). -/
def localeCompare (a b : String) : Int :=
  if lexLt a.data b.data then -1
  else if lexLt b.data a.data then 1
  else 0

/-- The list view's sort comparator, from `listResults` (identical in both
App.tsx revisions). -/
def sortCmp (k : SortKey) (dir : SortDirection) (a b : EnrichedBuild) : Int :=
  match k with
  | .publishedAtKey => (timeKey a - timeKey b) * sortFactor dir
  | .mcVersionKey => compareVersions a.mcVersion b.mcVersion * sortFactor dir
  | .jsMacrosVersionKey => localeCompare a.jsMacrosVersion b.jsMacrosVersion * sortFactor dir

/-- Boolean "not after" relation induced by the comparator, used to model
the stable `Array.prototype.sort`. -/
def sortLe (k : SortKey) (dir : SortDirection) (a b : EnrichedBuild) : Bool :=
  decide (sortCmp k dir a b ≤ 0)

/-- Extension filter of the guide flow (both App.tsx revisions):
`if (!required.length) return true; return required.every((ext) => build.extensions.includes(ext))`. -/
def buildMatchesExtensions (build : EnrichedBuild) (required : List String) : Bool :=
  if required.length = 0 then
    true
  else
    required.all (fun ext => decide (ext ∈ build.extensions))

/-- The loader test of the guide filter:
`selectedLoader && !b.modLoader.includes(selectedLoader)` (true when the
selected loader rules the entry out; the empty selection `''` is `none`). -/
def loaderMismatch (selectedLoader : Option Loader) (b : EnrichedBuild) : Bool :=
  match selectedLoader with
  | some l => ! decide (l ∈ b.modLoader)
  | none => false

/-- The guide flow's filter predicate (both App.tsx revisions).  The
"no selection" states are the code's own sentinels: the empty string for
`selectedMcVersion` and `''` (here `none`) for `selectedLoader : Loader | ''`. -/
def guideFilter (selectedMcVersion : String) (selectedLoader : Option Loader)
    (extensionFilters : List String) (b : EnrichedBuild) : Bool :=
  if selectedMcVersion ≠ "" ∧ b.mcVersion ≠ selectedMcVersion then
    false
  else if loaderMismatch selectedLoader b then
    false
  else
    buildMatchesExtensions b extensionFilters

/-- `guideResults` of the first App.tsx revision: a plain filter. -/
def guideResultsA (builds : List EnrichedBuild) (selectedMcVersion : String)
    (selectedLoader : Option Loader) (extensionFilters : List String) : List EnrichedBuild :=
  builds.filter (guideFilter selectedMcVersion selectedLoader extensionFilters)

/-- Comparator of the second revision's `guideResults` sort: newest publish
date first, ties broken by descending Minecraft version. -/
def guideCmp (a b : EnrichedBuild) : Int :=
  if timeKey a ≠ timeKey b then
    timeKey b - timeKey a
  else
    compareVersions b.mcVersion a.mcVersion

/-- `guideResults` of the second App.tsx revision: the same filter followed
by a stable sort with `guideCmp`. -/
def guideResultsB (builds : List EnrichedBuild) (selectedMcVersion : String)
    (selectedLoader : Option Loader) (extensionFilters : List String) : List EnrichedBuild :=
  (builds.filter (guideFilter selectedMcVersion selectedLoader extensionFilters)).mergeSort
    (fun a b => decide (guideCmp a b ≤ 0))

/-- JS `arr.join(" ")`. -/
def joinSpace : List String → String
  | [] => ""
  | [s] => s
  | s :: rest => s ++ " " ++ joinSpace rest

/-- Display name of a loader, as serialized into the search haystack. -/
def loaderName : Loader → String
  | .fabric => "fabric"
  | .forge => "forge"
  | .neoforge => "neoforge"

/-- Display name of a release type, as serialized into the search haystack. -/
def releaseTypeName : ReleaseType → String
  | .release => "release"
  | .beta => "beta"
  | .nightly => "nightly"

/-- Search haystack of the first App.tsx revision's `listResults`:
`[mcVersion, jsMacrosVersion, fork, repo, releaseType, modLoader.join(" "), extensions.join(" "), notes ?? ""].join(" ")`. -/
def searchHaystackA (b : EnrichedBuild) : String :=
  joinSpace [b.mcVersion, b.jsMacrosVersion, b.fork, b.repo,
    releaseTypeName b.releaseType,
    joinSpace (b.modLoader.map loaderName),
    joinSpace b.extensions,
    b.notes.getD ""]

/-- Search haystack of the second App.tsx revision's `listResults`: the
same fields with `sourceUrl ?? ''` inserted after `repo` and the literal
marker `'deprecated'` (empty when the flag is unset) after `releaseType`. -/
def searchHaystackB (b : EnrichedBuild) : String :=
  joinSpace [b.mcVersion, b.jsMacrosVersion, b.fork, b.repo,
    b.sourceUrl.getD "",
    releaseTypeName b.releaseType,
    (if b.deprecated then "deprecated" else ""),
    joinSpace (b.modLoader.map loaderName),
    joinSpace b.extensions,
    b.notes.getD ""]

/-- Search filter of `listResults`, shared shape in both revisions:
`!term || haystack.toLowerCase().includes(term)` where `haystack` is the
given field serialization. -/
def searchMatches (haystack : EnrichedBuild → String) (term : String) (b : EnrichedBuild) : Bool :=
  if term = "" then true
  else includesStr (jsToLower (haystack b)) term

/-- `listResults` of the first App.tsx revision:
`term = search.trim().toLowerCase()`, filter by haystack containment, then
stable sort with the selected key and direction. -/
def listResultsA (builds : List EnrichedBuild) (search : String)
    (k : SortKey) (dir : SortDirection) : List EnrichedBuild :=
  let term := jsToLower (jsTrim search)
  (builds.filter (searchMatches searchHaystackA term)).mergeSort (sortLe k dir)

/-- `listResults` of the second App.tsx revision (extended haystack, same
sort). -/
def listResultsB (builds : List EnrichedBuild) (search : String)
    (k : SortKey) (dir : SortDirection) : List EnrichedBuild :=
  let term := jsToLower (jsTrim search)
  (builds.filter (searchMatches searchHaystackB term)).mergeSort (sortLe k dir)

/-! ### Catalog validator (scripts/validate.ts, duplicate-id pass) -/

/-- The (group, id) pairs of the catalog in traversal order, as visited by
the validator's double loop over `Object.entries(result.data.versions)`. -/
def dupIdPairs (versions : List (String × List Build)) : List (String × String) :=
  versions.flatMap (fun p => p.2.map (fun b => (p.1, b.id)))

/-- The validator's duplicate scan: walk the (group, id) pairs keeping the
set of ids seen so far; on the first id already seen, report that id
together with the Minecraft version group it was discovered under. -/
def findDup (seen : List String) : List (String × String) → Option (String × String)
  | [] => none
  | (g, i) :: rest =>
    if i ∈ seen then some (i, g) else findDup (i :: seen) rest

/-- Duplicate-id check over a whole catalog. -/
def validateDuplicateIds (versions : List (String × List Build)) : Option (String × String) :=
  findDup [] (dupIdPairs versions)

/-- Process exit code of the validator's duplicate pass (`process.exitCode = 1`
on the first duplicate, 0 otherwise), for a structurally valid catalog. -/
def validatorExitCode (versions : List (String × List Build)) : Nat :=
  match validateDuplicateIds versions with
  | some _ => 1
  | none => 0

/-- The reported message:
`Duplicate build id "${build.id}" for Minecraft version ${mcVersion}`. -/
def duplicateMessage (p : String × String) : String :=
  "Duplicate build id \"" ++ p.1 ++ "\" for Minecraft version " ++ p.2

/-! ### Order properties of the sort comparators -/

theorem localeCompare_antisymm (a b : String) : localeCompare b a = -(localeCompare a b) := by
  unfold localeCompare
  cases h1 : lexLt a.data b.data with
  | true =>
    have h2 : lexLt b.data a.data = false := lexLt_asymm _ _ h1
    simp [h1, h2]
  | false =>
    cases h2 : lexLt b.data a.data with
    | true => simp [h1, h2]
    | false => simp [h1, h2]

theorem localeCompare_nonpos_iff (a b : String) :
    localeCompare a b ≤ 0 ↔ lexLt b.data a.data = false := by
  unfold localeCompare
  cases h1 : lexLt a.data b.data with
  | true =>
    have h2 : lexLt b.data a.data = false := lexLt_asymm _ _ h1
    simp [h2]
  | false =>
    cases h2 : lexLt b.data a.data with
    | true => simp
    | false => simp

theorem lexLt_false_trans (a b c : String)
    (h1 : lexLt b.data a.data = false) (h2 : lexLt c.data b.data = false) :
    lexLt c.data a.data = false := by
  cases hca : lexLt c.data a.data with
  | false => rfl
  | true =>
    exfalso
    rcases lexLt_trichotomy a.data b.data with hab | hab | hab
    · rcases lexLt_trichotomy b.data c.data with hbc | hbc | hbc
      · have := lexLt_trans _ _ _ (lexLt_trans _ _ _ hab hbc) hca
        rw [lexLt_irrefl] at this
        exact Bool.false_ne_true this
      · rw [hbc] at hab
        have := lexLt_trans _ _ _ hab hca
        rw [lexLt_irrefl] at this
        exact Bool.false_ne_true this
      · rw [hbc] at h2
        exact Bool.noConfusion h2
    · rw [hab] at hca
      rw [hca] at h2
      exact Bool.noConfusion h2
    · rw [hab] at h1
      exact Bool.noConfusion h1

theorem localeCompare_le_trans (a b c : String)
    (h1 : localeCompare a b ≤ 0) (h2 : localeCompare b c ≤ 0) :
    localeCompare a c ≤ 0 := by
  rw [localeCompare_nonpos_iff] at h1 h2 ⊢
  exact lexLt_false_trans a b c h1 h2

theorem sortCmp_antisymm (k : SortKey) (dir : SortDirection) (a b : EnrichedBuild) :
    sortCmp k dir b a = -(sortCmp k dir a b) := by
  cases k with
  | publishedAtKey =>
    show (timeKey b - timeKey a) * sortFactor dir = -((timeKey a - timeKey b) * sortFactor dir)
    ring
  | mcVersionKey =>
    show compareVersions b.mcVersion a.mcVersion * sortFactor dir
      = -(compareVersions a.mcVersion b.mcVersion * sortFactor dir)
    rw [compareVersions_antisymm]
    ring
  | jsMacrosVersionKey =>
    show localeCompare b.jsMacrosVersion a.jsMacrosVersion * sortFactor dir
      = -(localeCompare a.jsMacrosVersion b.jsMacrosVersion * sortFactor dir)
    rw [localeCompare_antisymm]
    ring

theorem sortCmp_le_trans (k : SortKey) (dir : SortDirection) (a b c : EnrichedBuild)
    (h1 : sortCmp k dir a b ≤ 0) (h2 : sortCmp k dir b c ≤ 0) :
    sortCmp k dir a c ≤ 0 := by
  cases k with
  | publishedAtKey =>
    cases dir <;>
      simp only [sortCmp, sortFactor, mul_one, mul_neg_one] at h1 h2 ⊢ <;> omega
  | mcVersionKey =>
    cases dir with
    | asc =>
      simp only [sortCmp, sortFactor, mul_one] at h1 h2 ⊢
      exact compareVersions_le_trans _ _ _ h1 h2
    | desc =>
      simp only [sortCmp, sortFactor, mul_neg_one] at h1 h2 ⊢
      have h1' : compareVersions b.mcVersion a.mcVersion ≤ 0 := by
        rw [compareVersions_antisymm]; omega
      have h2' : compareVersions c.mcVersion b.mcVersion ≤ 0 := by
        rw [compareVersions_antisymm]; omega
      have := compareVersions_le_trans _ _ _ h2' h1'
      rw [compareVersions_antisymm] at this
      omega
  | jsMacrosVersionKey =>
    cases dir with
    | asc =>
      simp only [sortCmp, sortFactor, mul_one] at h1 h2 ⊢
      exact localeCompare_le_trans _ _ _ h1 h2
    | desc =>
      simp only [sortCmp, sortFactor, mul_neg_one] at h1 h2 ⊢
      have h1' : localeCompare b.jsMacrosVersion a.jsMacrosVersion ≤ 0 := by
        rw [localeCompare_antisymm]; omega
      have h2' : localeCompare c.jsMacrosVersion b.jsMacrosVersion ≤ 0 := by
        rw [localeCompare_antisymm]; omega
      have := localeCompare_le_trans _ _ _ h2' h1'
      rw [localeCompare_antisymm] at this
      omega

theorem sortLe_trans (k : SortKey) (dir : SortDirection) :
    ∀ a b c : EnrichedBuild, sortLe k dir a b → sortLe k dir b c → sortLe k dir a c := by
  intro a b c h1 h2
  simp only [sortLe, decide_eq_true_eq] at h1 h2 ⊢
  exact sortCmp_le_trans k dir a b c h1 h2

theorem sortLe_total (k : SortKey) (dir : SortDirection) :
    ∀ a b : EnrichedBuild, sortLe k dir a b || sortLe k dir b a := by
  intro a b
  simp only [sortLe, Bool.or_eq_true, decide_eq_true_eq]
  have := sortCmp_antisymm k dir a b
  omega

theorem listResultsA_sorted (builds : List EnrichedBuild) (q : String)
    (k : SortKey) (dir : SortDirection) :
    (listResultsA builds q k dir).Pairwise (fun a b => sortCmp k dir a b ≤ 0) := by
  have h := List.sorted_mergeSort
    (fun a b c => sortLe_trans k dir a b c) (sortLe_total k dir)
    (builds.filter (searchMatches searchHaystackA (jsToLower (jsTrim q))))
  exact h.imp (fun hab => by simpa [sortLe] using hab)

theorem listResultsB_sorted (builds : List EnrichedBuild) (q : String)
    (k : SortKey) (dir : SortDirection) :
    (listResultsB builds q k dir).Pairwise (fun a b => sortCmp k dir a b ≤ 0) := by
  have h := List.sorted_mergeSort
    (fun a b c => sortLe_trans k dir a b c) (sortLe_total k dir)
    (builds.filter (searchMatches searchHaystackB (jsToLower (jsTrim q))))
  exact h.imp (fun hab => by simpa [sortLe] using hab)

theorem mem_listResultsA (builds : List EnrichedBuild) (q : String)
    (k : SortKey) (dir : SortDirection) (b : EnrichedBuild) :
    b ∈ listResultsA builds q k dir ↔
      b ∈ builds ∧ searchMatches searchHaystackA (jsToLower (jsTrim q)) b = true := by
  simp [listResultsA, List.mem_filter]

theorem mem_listResultsB (builds : List EnrichedBuild) (q : String)
    (k : SortKey) (dir : SortDirection) (b : EnrichedBuild) :
    b ∈ listResultsB builds q k dir ↔
      b ∈ builds ∧ searchMatches searchHaystackB (jsToLower (jsTrim q)) b = true := by
  simp [listResultsB, List.mem_filter]

/-! ### Spec-side predicates (declarative restatements used by the claims) -/

/-- The guide-filter criteria as the specification words them: the tag must
equal the selected version when one is selected, the loader set must contain
the selected loader when one is selected, and the extension set must contain
every required extension (all-of). -/
def guideCriteria (selectedMcVersion : String) (selectedLoader : Option Loader)
    (extensionFilters : List String) (b : EnrichedBuild) : Prop :=
  (selectedMcVersion ≠ "" → b.mcVersion = selectedMcVersion)
  ∧ (∀ l, selectedLoader = some l → l ∈ b.modLoader)
  ∧ (∀ e ∈ extensionFilters, e ∈ b.extensions)

/-- The free-text match exactly as claim C4 words it: the lowercased query
(as given, untrimmed) is a substring of the lowercased space-joined
eight-field serialization.  The empty-query clause is subsumed, since the
empty string is a substring of everything. -/
def claimSearchPred (q : String) (b : EnrichedBuild) : Prop :=
  (jsToLower q).data <:+: (jsToLower (searchHaystackA b)).data

/-- The amended free-text match: the trimmed-then-lowercased query is empty
or a substring of the lowercased serialization of the given field list. -/
def searchSpec (haystack : EnrichedBuild → String) (q : String) (b : EnrichedBuild) : Prop :=
  jsToLower (jsTrim q) = ""
  ∨ (jsToLower (jsTrim q)).data <:+: (jsToLower (haystack b)).data

/-- Claim C5's sort shape: in the output every entry lacking a publish date
is placed before every entry that has one, i.e. no dated entry precedes an
undated one. -/
def claimMissingDatesFirst (l : List EnrichedBuild) : Prop :=
  l.Pairwise (fun a b => a.publishedAt.isSome → b.publishedAt.isSome)

/-! ### Concrete sample data for witnesses and counterexamples -/

/-- A syntactically well-formed Download used by the sample builds. -/
def sampleDownload : Download :=
  { name := "jsmacros-2.1.0-fabric.jar"
    platform := .single .fabric
    url := "https://example.invalid/jsmacros-2.1.0-fabric.jar"
    checksum := none
    notes := none }

/-- Sample Build parametrized by id, software version and publish date. -/
def sampleBuild (id jsv : String) (pub : Option String) : Build :=
  { id := id
    repo := "JsMacros/JsMacros"
    fork := "JsMacros"
    commit := "abcdef1"
    jsMacrosVersion := jsv
    modLoader := [.fabric]
    extensions := ["js"]
    downloads := [sampleDownload]
    releaseType := .release
    status := none
    publishedAt := pub
    notes := none
    sourceUrl := none
    deprecated := false }

/-- An entry flagged deprecated whose other searched fields nowhere contain
the text "deprecated". -/
def deprecatedEntry : EnrichedBuild :=
  { toBuild := { sampleBuild "b-dep" "2.1.0" none with deprecated := true }
    mcVersion := "1.19.1" }

/-- An entry published one day before the Unix epoch. -/
def preEpochEntry : EnrichedBuild :=
  { toBuild := sampleBuild "b-pre" "2.1.0" (some "1969-12-31")
    mcVersion := "1.19.1" }

/-- An entry with no publish date. -/
def undatedEntry : EnrichedBuild :=
  { toBuild := sampleBuild "b-none" "2.1.0" none
    mcVersion := "1.21.1" }

/-- A small catalog in which two groups contain builds sharing one id. -/
def dupCatalog : List (String × List Build) :=
  [("1.19.1", [sampleBuild "dup-id" "2.1.0" none]),
    ("1.21.1", [sampleBuild "dup-id" "2.2.0" none])]

/-! ### Validator lemmas -/

theorem findDup_eq_none_iff :
    ∀ (l : List (String × String)) (seen : List String),
      findDup seen l = none ↔
        ((l.map Prod.snd).Nodup ∧ ∀ p ∈ l, p.2 ∉ seen) := by
  intro l
  induction l with
  | nil => intro seen; simp [findDup]
  | cons p rest ih =>
    intro seen
    obtain ⟨g, i⟩ := p
    by_cases hi : i ∈ seen
    · simp [findDup, hi]
    · have hstep : findDup seen ((g, i) :: rest) = findDup (i :: seen) rest := by
        simp [findDup, hi]
      rw [hstep, ih (i :: seen)]
      have hmapcons : (((g, i) :: rest).map Prod.snd) = i :: rest.map Prod.snd := rfl
      constructor
      · rintro ⟨hnd, hmem⟩
        have hni : i ∉ rest.map Prod.snd := by
          intro hmem0
          rcases List.mem_map.mp hmem0 with ⟨q, hq, hqi⟩
          refine (hmem q hq) ?_
          rw [hqi]
          exact List.mem_cons_self _ _
        constructor
        · rw [hmapcons]
          exact List.nodup_cons.mpr ⟨hni, hnd⟩
        · intro p hp
          rcases List.mem_cons.mp hp with hpe | hp2
          · rw [hpe]
            exact hi
          · exact fun hs => (hmem p hp2) (List.mem_cons_of_mem _ hs)
      · rintro ⟨hnd, hmem⟩
        rw [hmapcons] at hnd
        have hni := (List.nodup_cons.mp hnd).1
        have hnd2 := (List.nodup_cons.mp hnd).2
        refine ⟨hnd2, ?_⟩
        intro p hp hmem2
        rcases List.mem_cons.mp hmem2 with hpi | hps
        · exact hni (List.mem_map.mpr ⟨p, hp, hpi⟩)
        · exact hmem p (List.mem_cons_of_mem _ hp) hps

theorem findDup_eq_some :
    ∀ (l : List (String × String)) (seen : List String) (i g : String),
      findDup seen l = some (i, g) →
      ∃ l₁ l₂, l = l₁ ++ (g, i) :: l₂ ∧ (i ∈ seen ∨ i ∈ l₁.map Prod.snd) ∧
        (l₁.map Prod.snd).Nodup ∧ (∀ p ∈ l₁, p.2 ∉ seen) := by
  intro l
  induction l with
  | nil => intro seen i g h; exact absurd h (by simp [findDup])
  | cons p rest ih =>
    intro seen i g h
    obtain ⟨g0, i0⟩ := p
    by_cases hi : i0 ∈ seen
    · have : some (i0, g0) = some (i, g) := by
        rw [← h]; simp [findDup, hi]
      injection this with hpair
      obtain ⟨rfl, rfl⟩ := Prod.mk.injEq .. ▸ Prod.mk.inj hpair
      exact ⟨[], rest, rfl, Or.inl hi, by simp, by simp⟩
    · have hstep : findDup seen ((g0, i0) :: rest) = findDup (i0 :: seen) rest := by
        simp [findDup, hi]
      rw [hstep] at h
      obtain ⟨l₁, l₂, hsplit, hmem, hnd, hseen⟩ := ih (i0 :: seen) i g h
      refine ⟨(g0, i0) :: l₁, l₂, by rw [hsplit]; rfl, ?_, ?_, ?_⟩
      · rcases hmem with hm | hm
        · rcases List.mem_cons.mp hm with hm0 | hm0
          · exact Or.inr (by simp [hm0])
          · exact Or.inl hm0
        · exact Or.inr (by simp [hm])
      · simp only [List.map_cons, List.nodup_cons]
        refine ⟨?_, hnd⟩
        rintro hmem0
        rcases List.mem_map.mp hmem0 with ⟨q, hq, hqi⟩
        exact (hseen q hq) (by simp [hqi])
      · simp only [List.forall_mem_cons]
        refine ⟨hi, ?_⟩
        intro q hq
        intro hqs
        exact (hseen q hq) (by simp [hqs])

/-! ### Guide-filter lemmas -/

theorem buildMatchesExtensions_iff (b : EnrichedBuild) (req : List String) :
    buildMatchesExtensions b req = true ↔ ∀ e ∈ req, e ∈ b.extensions := by
  unfold buildMatchesExtensions
  by_cases h : req.length = 0
  · have : req = [] := List.length_eq_zero.mp h
    subst this
    simp
  · rw [if_neg h, List.all_eq_true]
    simp

theorem loaderMismatch_false_iff (selL : Option Loader) (b : EnrichedBuild) :
    loaderMismatch selL b = false ↔ ∀ l, selL = some l → l ∈ b.modLoader := by
  cases selL with
  | none => simp [loaderMismatch]
  | some l => simp [loaderMismatch]

theorem guideFilter_iff (selV : String) (selL : Option Loader) (req : List String)
    (b : EnrichedBuild) :
    guideFilter selV selL req b = true ↔ guideCriteria selV selL req b := by
  unfold guideFilter guideCriteria
  by_cases h1 : selV ≠ "" ∧ b.mcVersion ≠ selV
  · rw [if_pos h1]
    constructor
    · intro h; exact absurd h (by simp)
    · rintro ⟨hc1, _, _⟩
      exact absurd (hc1 h1.1) h1.2
  · rw [if_neg h1]
    have hmc : selV ≠ "" → b.mcVersion = selV := by
      intro hs
      by_contra hne
      exact h1 ⟨hs, hne⟩
    cases hlm : loaderMismatch selL b with
    | true =>
      rw [if_pos rfl]
      constructor
      · intro h; exact absurd h (by simp)
      · rintro ⟨_, hc2, _⟩
        have := (loaderMismatch_false_iff selL b).mpr hc2
        rw [hlm] at this
        exact Bool.noConfusion this
    | false =>
      rw [if_neg (by simp)]
      rw [buildMatchesExtensions_iff]
      constructor
      · intro hext
        exact ⟨hmc, (loaderMismatch_false_iff selL b).mp hlm, hext⟩
      · rintro ⟨_, _, hext⟩
        exact hext

theorem mem_guideResultsA (builds : List EnrichedBuild) (selV : String)
    (selL : Option Loader) (req : List String) (b : EnrichedBuild) :
    b ∈ guideResultsA builds selV selL req ↔
      b ∈ builds ∧ guideCriteria selV selL req b := by
  rw [guideResultsA, List.mem_filter, guideFilter_iff]

theorem mem_guideResultsB (builds : List EnrichedBuild) (selV : String)
    (selL : Option Loader) (req : List String) (b : EnrichedBuild) :
    b ∈ guideResultsB builds selV selL req ↔
      b ∈ builds ∧ guideCriteria selV selL req b := by
  rw [guideResultsB, List.mem_mergeSort, List.mem_filter, guideFilter_iff]

theorem flattenBuilds_length :
    ∀ versions : List (String × List Build),
      (flattenBuilds versions).length = (versions.map (fun p => p.2.length)).sum := by
  intro versions
  induction versions with
  | nil => rfl
  | cons p rest ih =>
    simp [flattenBuilds] at ih ⊢
    omega

/-! ### Claim theorems -/

/-- C1: `compareVersions` compares two version strings by splitting each on
`.` into numeric components (non-numeric or missing treated as 0), comparing
component-by-component left to right, and ordering the shorter sequence
first when all compared components agree — formalized as sign agreement
with the spec-worded order `specVersionOrder` — and in particular
`compareVersions "1.19.1" "1.21.1" < 0`, `compareVersions "1.2" "1.2.0" < 0`
and `compareVersions "2.10" "2.9" > 0`. -/
theorem claim1_compareVersions_spec :
    (∀ a b : String,
      (compareVersions a b < 0 ↔ specVersionOrder a b = .lt)
      ∧ (compareVersions a b = 0 ↔ specVersionOrder a b = .eq)
      ∧ (0 < compareVersions a b ↔ specVersionOrder a b = .gt))
    ∧ compareVersions "1.19.1" "1.21.1" < 0
    ∧ compareVersions "1.2" "1.2.0" < 0
    ∧ 0 < compareVersions "2.10" "2.9" :=
  ⟨compareVersions_spec_agree, by decide, by decide, by decide⟩

/-- Witness for C1 at a concrete pair of version strings. -/
theorem claim1_witness : specVersionOrder "1.19.1" "1.21.1" = Ordering.lt :=
  ((claim1_compareVersions_spec.1 "1.19.1" "1.21.1").1).mp (by decide)

/-- C2: for all version strings `a`, `b`,
`compareVersions a b = -(compareVersions b a)`, and
`compareVersions a a = 0`. -/
theorem claim2_compareVersions_antisymm_refl :
    (∀ a b : String, compareVersions a b = -(compareVersions b a))
    ∧ (∀ a : String, compareVersions a a = 0) :=
  ⟨fun a b => compareVersions_antisymm b a, compareVersions_self⟩

/-- Witness for C2 at a concrete pair of version strings. -/
theorem claim2_witness :
    compareVersions "1.19.1" "1.21.1" = -(compareVersions "1.21.1" "1.19.1") :=
  claim2_compareVersions_antisymm_refl.1 "1.19.1" "1.21.1"

/-- C3: the guided multi-criteria filter returns exactly the entries whose
version-group tag equals the selected version (when one is selected), whose
loader set contains the selected loader (when one is selected), and whose
extension set is a superset of every required extension (all-of), in both
App.tsx revisions. -/
theorem claim3_guide_filter_exact :
    ∀ (builds : List EnrichedBuild) (selV : String) (selL : Option Loader)
      (req : List String) (b : EnrichedBuild),
      (b ∈ guideResultsA builds selV selL req ↔ b ∈ builds ∧ guideCriteria selV selL req b)
      ∧ (b ∈ guideResultsB builds selV selL req ↔ b ∈ builds ∧ guideCriteria selV selL req b) :=
  fun builds selV selL req b =>
    ⟨mem_guideResultsA builds selV selL req b, mem_guideResultsB builds selV selL req b⟩

/-- Witness for C3: a concrete guided query keeps a matching entry. -/
theorem claim3_witness :
    deprecatedEntry ∈ guideResultsA [deprecatedEntry, undatedEntry] "1.19.1"
      (some .fabric) ["js"] := by
  refine (claim3_guide_filter_exact [deprecatedEntry, undatedEntry] "1.19.1"
    (some .fabric) ["js"] deprecatedEntry).1.mpr ⟨by decide, ⟨fun _ => rfl, ?_, ?_⟩⟩
  · intro l hl
    injection hl with hl
    subst hl
    decide
  · intro e he
    rcases List.mem_singleton.mp he with rfl
    decide

/-- C4 counterexample: with the query `"  deprecated"` (leading
whitespace), the second revision's list search matches an entry flagged
deprecated, yet the lowercased query is not a substring of the lowercased
eight-field serialization named by the claim — so the claim's "iff" fails
both because of the query trimming and because this revision searches two
more fields. -/
theorem claim4_counterexample :
    deprecatedEntry ∈ listResultsB [deprecatedEntry] "  deprecated" .publishedAtKey .asc
    ∧ ¬ claimSearchPred "  deprecated" deprecatedEntry := by
  constructor
  · exact (mem_listResultsB [deprecatedEntry] "  deprecated" .publishedAtKey .asc
      deprecatedEntry).mpr ⟨by decide, by decide⟩
  · unfold claimSearchPred
    rw [← isInfixOfB_iff]
    decide

/-- C4 (amended): an entry passes the list view's free-text search iff the
trimmed-then-lowercased query is empty or a substring of the lowercased
space-joined field serialization, where the first revision serializes
exactly the eight claimed fields and the second revision additionally
includes the source URL (empty when absent, after the repository) and the
literal marker `deprecated` for flagged entries (after the release type). -/
theorem claim4_amended_search :
    ∀ (builds : List EnrichedBuild) (q : String) (k : SortKey) (dir : SortDirection)
      (b : EnrichedBuild),
      (b ∈ listResultsA builds q k dir ↔ b ∈ builds ∧ searchSpec searchHaystackA q b)
      ∧ (b ∈ listResultsB builds q k dir ↔ b ∈ builds ∧ searchSpec searchHaystackB q b) := by
  intro builds q k dir b
  have hsm : ∀ hay : EnrichedBuild → String,
      (searchMatches hay (jsToLower (jsTrim q)) b = true ↔ searchSpec hay q b) := by
    intro hay
    unfold searchMatches searchSpec
    by_cases ht : jsToLower (jsTrim q) = ""
    · simp [ht]
    · rw [if_neg ht]
      unfold includesStr
      rw [isInfixOfB_iff]
      simp [ht]
  have hA := mem_listResultsA builds q k dir b
  have hB := mem_listResultsB builds q k dir b
  rw [hsm searchHaystackA] at hA
  rw [hsm searchHaystackB] at hB
  exact ⟨hA, hB⟩

/-- Witness for C4 (amended): a case-insensitive loader search keeps a
matching entry. -/
theorem claim4_witness :
    deprecatedEntry ∈ listResultsB [deprecatedEntry] "FABRIC" .publishedAtKey .asc :=
  (claim4_amended_search [deprecatedEntry] "FABRIC" .publishedAtKey .asc
      deprecatedEntry).2.mpr
    ⟨by decide, Or.inr ((isInfixOfB_iff _ _).mp (by decide))⟩

/-- C5 counterexample: sorting by publish date ascending an entry published
1969-12-31 (timestamp `-86400000`) is placed before the entry with no
publish date (sentinel 0), so an entry with a date precedes an entry
without one, contradicting the claim. -/
theorem claim5_counterexample :
    ¬ claimMissingDatesFirst
      (listResultsA [preEpochEntry, undatedEntry] "" .publishedAtKey .asc) := by
  have hfilter : ([preEpochEntry, undatedEntry].filter
      (searchMatches searchHaystackA (jsToLower (jsTrim ""))))
      = [preEpochEntry, undatedEntry] := by decide
  have hsorted : List.Pairwise (fun a b => sortLe .publishedAtKey .asc a b = true)
      [preEpochEntry, undatedEntry] := by
    decide
  have hout : listResultsA [preEpochEntry, undatedEntry] "" .publishedAtKey .asc
      = [preEpochEntry, undatedEntry] := by
    show (([preEpochEntry, undatedEntry].filter
      (searchMatches searchHaystackA (jsToLower (jsTrim "")))).mergeSort
        (sortLe .publishedAtKey .asc)) = _
    rw [hfilter]
    exact List.mergeSort_of_sorted hsorted
  rw [claimMissingDatesFirst, hout]
  intro hcl
  have hrel := (List.pairwise_cons.mp hcl).1 undatedEntry (by simp)
  exact absurd (hrel (by decide)) (by decide)

/-- C5 (amended): sorting by publish date ascending, an entry preceding an
undated entry always has publish-time key at most the sentinel 0; hence
every undated entry is placed before every entry with a positive timestamp
(any date after 1970-01-01), while pre-epoch or epoch dates may legally
precede undated entries.  Stated for catalogs whose present dates parse
(the CI-validated regime, where the model's timestamps coincide with JS). -/
theorem claim5_amended_pub_sort :
    ∀ (builds : List EnrichedBuild) (q : String),
      (∀ b ∈ builds, pubParses b) →
      ((listResultsA builds q .publishedAtKey .asc).Pairwise
        (fun a b => 0 < timeKey a → b.publishedAt ≠ none))
      ∧ ((listResultsB builds q .publishedAtKey .asc).Pairwise
        (fun a b => 0 < timeKey a → b.publishedAt ≠ none)) := by
  intro builds q hvalid
  constructor
  · refine (listResultsA_sorted builds q .publishedAtKey .asc).imp ?_
    intro a b hab hpos hbn
    have hb0 : timeKey b = 0 := by simp [timeKey, hbn]
    simp only [sortCmp, sortFactor, mul_one] at hab
    omega
  · refine (listResultsB_sorted builds q .publishedAtKey .asc).imp ?_
    intro a b hab hpos hbn
    have hb0 : timeKey b = 0 := by simp [timeKey, hbn]
    simp only [sortCmp, sortFactor, mul_one] at hab
    omega

/-- Witness for C5 (amended) on a concrete two-entry collection. -/
theorem claim5_witness :
    (listResultsA [preEpochEntry, undatedEntry] "" .publishedAtKey .asc).Pairwise
      (fun a b => 0 < timeKey a → b.publishedAt ≠ none) := by
  refine (claim5_amended_pub_sort [preEpochEntry, undatedEntry] "" ?_).1
  intro b hb
  rcases List.mem_cons.mp hb with rfl | hb2
  · intro s hs
    have hps : preEpochEntry.publishedAt = some "1969-12-31" := rfl
    rw [hps] at hs
    injection hs with hs
    subst hs
    decide
  · rcases List.mem_singleton.mp hb2 with rfl
    intro s hs
    have hps : undatedEntry.publishedAt = none := rfl
    rw [hps] at hs
    exact Option.noConfusion hs

/-- C6: flattening the grouped versions mapping yields one EnrichedBuild
per contained Build, tagged with the key of the group it was found under
and with the original Build preserved unchanged; in particular a catalog
with groups `{"1.19.1": [b1], "1.21.1": [b2]}` flattens to exactly `b1`
tagged `"1.19.1"` followed by `b2` tagged `"1.21.1"`. -/
theorem claim6_flatten :
    (∀ (versions : List (String × List Build)) (e : EnrichedBuild),
      e ∈ flattenBuilds versions ↔
        ∃ k arr b, (k, arr) ∈ versions ∧ b ∈ arr ∧ e.toBuild = b ∧ e.mcVersion = k)
    ∧ (∀ versions : List (String × List Build),
        (flattenBuilds versions).length = (versions.map (fun p => p.2.length)).sum)
    ∧ (∀ b1 b2 : Build,
        flattenBuilds [("1.19.1", [b1]), ("1.21.1", [b2])]
          = [{ toBuild := b1, mcVersion := "1.19.1" },
              { toBuild := b2, mcVersion := "1.21.1" }]) := by
  refine ⟨?_, flattenBuilds_length, fun b1 b2 => rfl⟩
  intro versions e
  simp only [flattenBuilds, List.mem_flatMap, List.mem_map]
  constructor
  · rintro ⟨p, hp, b, hb, rfl⟩
    exact ⟨p.1, p.2, b, by simpa using hp, hb, rfl, rfl⟩
  · rintro ⟨k, arr, b, hmem, hb, htb, hmc⟩
    refine ⟨(k, arr), hmem, b, hb, ?_⟩
    cases e with
    | mk tb mc =>
      simp only at htb hmc
      rw [htb, hmc]

/-- Witness for C6 at a concrete catalog. -/
theorem claim6_witness :
    ({ toBuild := sampleBuild "w6" "2.1.0" none, mcVersion := "1.19.1" } : EnrichedBuild)
      ∈ flattenBuilds [("1.19.1", [sampleBuild "w6" "2.1.0" none])] :=
  (claim6_flatten.1 [("1.19.1", [sampleBuild "w6" "2.1.0" none])] _).mpr
    ⟨"1.19.1", [sampleBuild "w6" "2.1.0" none], sampleBuild "w6" "2.1.0" none,
      by simp, by simp, rfl, rfl⟩

/-- C7: `loadBuilds` resolves every failure (network rejection, non-2xx
status, JSON parse failure) to a result with no builds and an error
message, never propagating an exception (the model is a total function
over all retrieval outcomes); on a non-2xx response the message contains
the status. -/
theorem claim7_loadBuilds_errors :
    (∀ o : FetchOutcome, ¬ fetchSuccess o →
      (loadBuilds o).builds = [] ∧ ∃ m, (loadBuilds o).error = some m)
    ∧ (∀ (status : Nat) (body : Except (Option String) BuildsData), ¬ statusOk status →
        ∃ m, (loadBuilds (.response status body)).error = some m
          ∧ (toString status).data <:+: m.data) := by
  constructor
  · intro o hfail
    cases o with
    | networkError m => exact ⟨rfl, caughtMessage m, rfl⟩
    | response status body =>
      by_cases hok : statusOk status
      · cases body with
        | error m => simp [loadBuilds, hok]
        | ok json => exact absurd hok hfail
      · simp [loadBuilds, hok]
  · intro status body hok
    refine ⟨"Failed to fetch data (" ++ toString status ++ ")", ?_, ?_⟩
    · simp [loadBuilds, hok]
    · exact ⟨"Failed to fetch data (".data, ")".data, by simp⟩

/-- Witness for C7: a 404 parse-free failure and a 500 response. -/
theorem claim7_witness :
    (loadBuilds (.response 404 (.error none))).builds = []
    ∧ (∃ m, (loadBuilds (.response 404 (.error none))).error = some m)
    ∧ (∃ m, (loadBuilds (.response 500 (.ok ⟨"2025-01-05", []⟩))).error = some m
        ∧ (toString 500).data <:+: m.data) := by
  have h404 : ¬ statusOk 404 := by decide
  refine ⟨?_, ?_, ?_⟩
  · exact (claim7_loadBuilds_errors.1 (.response 404 (.error none))
      (fun h => absurd h (by simp [fetchSuccess]))).1
  · exact (claim7_loadBuilds_errors.1 (.response 404 (.error none))
      (fun h => absurd h (by simp [fetchSuccess]))).2
  · exact claim7_loadBuilds_errors.2 500 (.ok ⟨"2025-01-05", []⟩) (by decide)

/-- C8: for a structurally valid catalog the duplicate-id pass exits 0
exactly when all Build ids across all version groups are distinct, and
when it reports a duplicate `(i, g)` then `i` already occurred in the
duplicate-free prefix of the traversal and `g` is the version group of the
offending (second) occurrence — the first duplicate found. -/
theorem claim8_duplicate_ids :
    (∀ versions : List (String × List Build),
      (validatorExitCode versions = 0 ↔ ((dupIdPairs versions).map Prod.snd).Nodup))
    ∧ (∀ (versions : List (String × List Build)) (i g : String),
        validateDuplicateIds versions = some (i, g) →
          validatorExitCode versions ≠ 0
          ∧ ∃ l₁ l₂, dupIdPairs versions = l₁ ++ (g, i) :: l₂
              ∧ i ∈ l₁.map Prod.snd ∧ (l₁.map Prod.snd).Nodup) := by
  constructor
  · intro versions
    cases hv : validateDuplicateIds versions with
    | none =>
      have hexit : validatorExitCode versions = 0 := by
        unfold validatorExitCode
        rw [hv]
      constructor
      · intro _
        exact ((findDup_eq_none_iff _ _).mp hv).1
      · intro _
        exact hexit
    | some p =>
      obtain ⟨i, g⟩ := p
      have hexit : validatorExitCode versions = 1 := by
        unfold validatorExitCode
        rw [hv]
      constructor
      · intro h0
        rw [hexit] at h0
        exact absurd h0 (by decide)
      · intro hnodup
        exfalso
        obtain ⟨l₁, l₂, hsplit, hmem, hnd, _⟩ := findDup_eq_some _ [] i g hv
        rcases hmem with hm | hm
        · exact List.not_mem_nil i hm
        · rw [hsplit, List.map_append, List.map_cons] at hnodup
          rcases List.nodup_append.mp hnodup with ⟨_, _, hdisj⟩
          exact hdisj hm (List.mem_cons_self _ _)
  · intro versions i g hv
    have hexit : validatorExitCode versions = 1 := by
      unfold validatorExitCode
      rw [hv]
    refine ⟨by rw [hexit]; decide, ?_⟩
    obtain ⟨l₁, l₂, hsplit, hmem, hnd, _⟩ := findDup_eq_some _ [] i g hv
    rcases hmem with hm | hm
    · exact absurd hm (List.not_mem_nil i)
    · exact ⟨l₁, l₂, hsplit, hm, hnd⟩

/-- Witness for C8: the sample catalog with a repeated id fails, reporting
the duplicate id and the group of its second occurrence. -/
theorem claim8_witness :
    validatorExitCode dupCatalog ≠ 0
    ∧ ∃ l₁ l₂, dupIdPairs dupCatalog = l₁ ++ ("1.21.1", "dup-id") :: l₂
        ∧ "dup-id" ∈ l₁.map Prod.snd ∧ (l₁.map Prod.snd).Nodup :=
  claim8_duplicate_ids.2 dupCatalog "dup-id" "1.21.1" (by decide)

/-- C9: sorting by the software-version key orders entries by plain
lexicographic string order of `jsMacrosVersion` (ascending or descending
with the chosen direction), not by the dotted-numeric comparator: the
string order puts `"2.10"` before `"2.9"` while `compareVersions` puts it
after. -/
theorem claim9_jsMacrosVersion_sort :
    (∀ (builds : List EnrichedBuild) (q : String),
      ((listResultsA builds q .jsMacrosVersionKey .asc).Pairwise
        (fun a b => lexLt b.jsMacrosVersion.data a.jsMacrosVersion.data = false))
      ∧ ((listResultsB builds q .jsMacrosVersionKey .asc).Pairwise
        (fun a b => lexLt b.jsMacrosVersion.data a.jsMacrosVersion.data = false))
      ∧ ((listResultsA builds q .jsMacrosVersionKey .desc).Pairwise
        (fun a b => lexLt a.jsMacrosVersion.data b.jsMacrosVersion.data = false))
      ∧ ((listResultsB builds q .jsMacrosVersionKey .desc).Pairwise
        (fun a b => lexLt a.jsMacrosVersion.data b.jsMacrosVersion.data = false)))
    ∧ (lexLt "2.10".data "2.9".data = true ∧ 0 < compareVersions "2.10" "2.9") := by
  constructor
  · intro builds q
    refine ⟨?_, ?_, ?_, ?_⟩
    · refine (listResultsA_sorted builds q .jsMacrosVersionKey .asc).imp ?_
      intro a b hab
      simp only [sortCmp, sortFactor, mul_one] at hab
      exact (localeCompare_nonpos_iff _ _).mp hab
    · refine (listResultsB_sorted builds q .jsMacrosVersionKey .asc).imp ?_
      intro a b hab
      simp only [sortCmp, sortFactor, mul_one] at hab
      exact (localeCompare_nonpos_iff _ _).mp hab
    · refine (listResultsA_sorted builds q .jsMacrosVersionKey .desc).imp ?_
      intro a b hab
      simp only [sortCmp, sortFactor, mul_neg_one] at hab
      have : localeCompare b.jsMacrosVersion a.jsMacrosVersion ≤ 0 := by
        rw [localeCompare_antisymm]
        omega
      exact (localeCompare_nonpos_iff _ _).mp this
    · refine (listResultsB_sorted builds q .jsMacrosVersionKey .desc).imp ?_
      intro a b hab
      simp only [sortCmp, sortFactor, mul_neg_one] at hab
      have : localeCompare b.jsMacrosVersion a.jsMacrosVersion ≤ 0 := by
        rw [localeCompare_antisymm]
        omega
      exact (localeCompare_nonpos_iff _ _).mp this
  · exact ⟨by decide, by decide⟩

/-- Witness for C9 on a concrete two-entry collection. -/
theorem claim9_witness :
    (listResultsA [preEpochEntry, undatedEntry] "" .jsMacrosVersionKey .asc).Pairwise
      (fun a b => lexLt b.jsMacrosVersion.data a.jsMacrosVersion.data = false) :=
  (claim9_jsMacrosVersion_sort.1 [preEpochEntry, undatedEntry] "").1

/-- C10: the sign of `compareVersions` is transitive (negative chains
compose), so it induces a total preorder; its induced equivalence is
coarser than string equality, e.g. `"1.x"` and `"1.y"` compare equal while
being different strings. -/
theorem claim10_sign_transitive :
    (∀ a b c : String,
      compareVersions a b < 0 → compareVersions b c < 0 → compareVersions a c < 0)
    ∧ compareVersions "1.x" "1.y" = 0 ∧ "1.x" ≠ "1.y" :=
  ⟨compareVersions_lt_trans, by decide, by decide⟩

/-- Witness for C10: a concrete negative chain composes. -/
theorem claim10_witness : compareVersions "1.2" "2.0" < 0 :=
  claim10_sign_transitive.1 "1.2" "1.10" "2.0" (by decide) (by decide)

end JsMacrosFinder
